import Mathlib

/-!
Shallow embedding of the client-side image-collection editor of this
repository: the `uploadedFiles` array and its operations from the
product-edit script (`static/js/edit-product.js`) and the product-create
script (same widget without the initial-load step and with a
placeholder-locator submit handler).

JavaScript string built-ins used by the scripts (`split`, `startsWith`,
`join`) are modelled over the character list of a string so that every
definition evaluates inside the kernel.
-/

namespace ImageEditor

/-- Model of JavaScript `String.prototype.split` with a one-character
separator, over character lists: `"a,b".split(',') = ["a","b"]`,
`"".split(',') = [""]`, `",".split(',') = ["",""]`. -/
def splitChars (c : Char) : List Char → List (List Char)
  | [] => [[]]
  | d :: rest =>
      match splitChars c rest with
      | [] => [[d]]
      | h :: t => if d = c then [] :: h :: t else (d :: h) :: t

/-- JavaScript `s.split(c)` for a single-character separator. -/
def jsSplit (s : String) (c : Char) : List String :=
  (splitChars c s.data).map String.mk

/-- Helper for `jsStartsWith`: does the first list begin with the second? -/
def startsWithChars : List Char → List Char → Bool
  | _, [] => true
  | [], _ :: _ => false
  | a :: as, b :: bs => a = b && startsWithChars as bs

/-- JavaScript `s.startsWith(pat)`. -/
def jsStartsWith (s pat : String) : Bool :=
  startsWithChars s.data pat.data

/-- Helper for `jsJoin`: interleave a separator character between chunks. -/
def joinChars (c : Char) : List (List Char) → List Char
  | [] => []
  | [x] => x
  | x :: xs => x ++ c :: joinChars c xs

/-- JavaScript `array.join(c)` for a single-character separator. -/
def jsJoin (c : Char) (parts : List String) : String :=
  ⟨joinChars c (parts.map String.data)⟩

/-- A raw file handle as delivered by the file picker or a drag-and-drop
payload: a (filename, content-type, byte-content) triple. The byte
content is kept as its base64 text since the scripts treat it opaquely. -/
structure RawFile where
  name : String
  type : String
  content : String
deriving Repr, DecidableEq

/-- One element of the scripts' `uploadedFiles` array:
`{ id, url, name, isNewUpload }`. Entries made by `loadInitialImages`
and all create-flow entries leave `isNewUpload` unset, modelled as
`false`; the edit-flow `handleFiles` callback sets it to `true`. -/
structure FileData where
  id : Nat
  url : String
  name : String
  isNewUpload : Bool
deriving Repr, DecidableEq

/-- Result of `FileReader.readAsDataURL` on a raw file: a data URL
carrying the content type and the base64 payload. -/
def readAsDataURL (f : RawFile) : String :=
  "data:" ++ f.type ++ ";base64," ++ f.content

/-- The entry pushed by the `reader.onload` callback in `handleFiles`;
the fresh `id` (`Date.now() + Math.random()` in the script) is supplied
by the environment. -/
def decodeEntry (f : RawFile) (newId : Nat) : FileData :=
  { id := newId, url := readAsDataURL f, name := f.name, isNewUpload := true }

/-- The acceptance test of `handleFiles`: `file.type.startsWith('image/')`. -/
def isImageType (f : RawFile) : Bool :=
  jsStartsWith f.type "image/"

/-- The entry built for one locator by `loadInitialImages`:
`{ id, url, name: url.split('/').pop() }`. -/
def remoteEntry (url : String) (newId : Nat) : FileData :=
  { id := newId, url := url, name := (jsSplit url '/').getLastD "",
    isNewUpload := false }

/-- The url list read by `loadInitialImages`:
`imagesHiddenInput.value ? imagesHiddenInput.value.split(',') : []`
(the empty string is the only falsy string). -/
def initialUrls (v : String) : List String :=
  if v = "" then [] else jsSplit v ','

/-- Mapping locators to entries with ids drawn in order from the
environment's id sequence `env`, starting at position `clock`. -/
def mkRemoteEntries (env : Nat → Nat) : Nat → List String → List FileData
  | _, [] => []
  | clock, u :: us => remoteEntry u (env clock) :: mkRemoteEntries env (clock + 1) us

/-- The `loadInitialImages` function of the edit script: parse the
hidden field's value and replace `uploadedFiles` with Remote entries. -/
def loadInitialImages (env : Nat → Nat) (clock : Nat) (v : String) : List FileData :=
  mkRemoteEntries env clock (initialUrls v)

/-- The `setAsMain` function: `splice(index, 1)` followed by `unshift`.
The scripts only ever wire this to indices that exist at render time
(the render step creates one button per live index), so the model keeps
the list unchanged on the unreachable out-of-range path. -/
def setAsMain (l : List FileData) (k : Nat) : List FileData :=
  if h : k < l.length then l.get ⟨k, h⟩ :: l.eraseIdx k else l

/-- The `removeImage` function: `splice(index, 1)`, which removes the
entry at `index` and removes nothing when `index` is past the end.
`List.eraseIdx` has exactly this behaviour. -/
def removeImage (l : List FileData) (k : Nat) : List FileData :=
  l.eraseIdx k

/-- The edit-flow submit handler's serialization: keep the entries whose
url is not a data URL, in order, and join their urls with commas. -/
def serializeEdit (l : List FileData) : String :=
  jsJoin ',' ((l.filter (fun f => !(jsStartsWith f.url "data:"))).map (fun f => f.url))

/-- The create-flow submit handler's serialization: map every entry to
the placeholder locator built from its filename and join with commas. -/
def serializeCreate (l : List FileData) : String :=
  jsJoin ',' (l.map (fun f => "/static/img/uploads/" ++ f.name))

/-- The spec's description of the edit-flow serialization: the locators
of the Remote entries (by provenance, i.e. the entries that are not new
uploads), in their current order, joined with the fixed delimiter. -/
def specEditSerialize (l : List FileData) : String :=
  jsJoin ',' ((l.filter (fun f => !f.isNewUpload)).map (fun f => f.url))

/-- Editor state: the `uploadedFiles` array plus a counter into the
environment's id sequence (one fresh value is consumed per created
entry). -/
structure EditorState where
  entries : List FileData
  clock : Nat
deriving Repr, DecidableEq

/-- External events the editor reacts to. `decodeDone f` is the
completion of the asynchronous decode started by `handleFiles` for `f`;
the script only starts a decode for image-typed files, so the step
function ignores the event otherwise. -/
inductive Event where
  | load (v : String)
  | decodeDone (f : RawFile)
  | promote (k : Nat)
  | removeAt (k : Nat)
deriving Repr, DecidableEq

/-- One editor transition. -/
def step (env : Nat → Nat) (s : EditorState) : Event → EditorState
  | .load v =>
      { entries := loadInitialImages env s.clock v,
        clock := s.clock + (initialUrls v).length }
  | .decodeDone f =>
      if isImageType f then
        { entries := s.entries ++ [decodeEntry f (env s.clock)],
          clock := s.clock + 1 }
      else s
  | .promote k => { s with entries := setAsMain s.entries k }
  | .removeAt k => { s with entries := removeImage s.entries k }

/-- The editor starts with an empty `uploadedFiles` array. -/
def initState : EditorState := { entries := [], clock := 0 }

/-- Run a sequence of events from a state. -/
def run (env : Nat → Nat) (s : EditorState) : List Event → EditorState
  | [] => s
  | e :: es => run env (step env s e) es

/-- Run a sequence of events from the initial state. -/
def runTrace (env : Nat → Nat) (tr : List Event) : EditorState :=
  run env initState tr

/-- The entries appended by a sequence of decode completions of
image-typed files, ids drawn in order from `env` starting at `clock`. -/
def ingested (env : Nat → Nat) : Nat → List RawFile → List FileData
  | _, [] => []
  | clock, f :: fs => decodeEntry f (env clock) :: ingested env (clock + 1) fs

/-- Sample Remote entries used to instantiate the theorems on concrete
inputs. -/
def sampleEntries : List FileData :=
  [⟨1, "img1.jpg", "img1.jpg", false⟩, ⟨2, "img2.jpg", "img2.jpg", false⟩,
   ⟨3, "img3.jpg", "img3.jpg", false⟩]

/-- A sample image-typed raw file. -/
def sampleImageFile : RawFile := ⟨"a.png", "image/png", "AAAA"⟩

/-- A second sample image-typed raw file. -/
def sampleImageFileB : RawFile := ⟨"b.png", "image/png", "BBBB"⟩

/-- A sample non-image raw file. -/
def sampleTextFile : RawFile := ⟨"notes.txt", "text/plain", "CCCC"⟩

/-! Helper lemmas about the string primitives. -/

theorem splitChars_ne_nil (c : Char) (l : List Char) : splitChars c l ≠ [] := by
  induction l with
  | nil => simp [splitChars]
  | cons d rest ih =>
      cases h : splitChars c rest with
      | nil => exact absurd h ih
      | cons a t =>
          by_cases hdc : d = c <;> simp [splitChars, h, hdc]

theorem splitChars_of_not_mem {c : Char} {l : List Char} (h : c ∉ l) :
    splitChars c l = [l] := by
  induction l with
  | nil => rfl
  | cons d rest ih =>
      have hdc : d ≠ c := fun hd => h (hd ▸ List.mem_cons_self d rest)
      have hrest : c ∉ rest := fun hm => h (List.mem_cons_of_mem d hm)
      simp [splitChars, ih hrest, hdc]

theorem splitChars_append_cons {c : Char} {l₁ : List Char} (l₂ : List Char)
    (h : c ∉ l₁) : splitChars c (l₁ ++ c :: l₂) = l₁ :: splitChars c l₂ := by
  induction l₁ with
  | nil =>
      cases hsc : splitChars c l₂ with
      | nil => exact absurd hsc (splitChars_ne_nil c l₂)
      | cons a t => simp [splitChars, hsc]
  | cons d ds ih =>
      have hdc : d ≠ c := fun hd => h (hd ▸ List.mem_cons_self d ds)
      have hds : c ∉ ds := fun hm => h (List.mem_cons_of_mem d hm)
      simp [splitChars, ih hds, hdc]

theorem splitChars_joinChars {c : Char} {css : List (List Char)} (hne : css ≠ [])
    (hc : ∀ cs ∈ css, c ∉ cs) : splitChars c (joinChars c css) = css := by
  induction css with
  | nil => exact absurd rfl hne
  | cons x rest ih =>
      cases rest with
      | nil => exact splitChars_of_not_mem (hc x (List.mem_cons_self x []))
      | cons y t =>
          have hx : c ∉ x := hc x (List.mem_cons_self x (y :: t))
          have hrest : ∀ cs ∈ y :: t, c ∉ cs :=
            fun cs hcs => hc cs (List.mem_cons_of_mem x hcs)
          have hjoin : joinChars c (x :: y :: t) = x ++ c :: joinChars c (y :: t) := rfl
          rw [hjoin, splitChars_append_cons _ hx, ih (by simp) hrest]

theorem jsSplit_jsJoin {c : Char} {parts : List String} (hne : parts ≠ [])
    (hc : ∀ p ∈ parts, c ∉ p.data) : jsSplit (jsJoin c parts) c = parts := by
  have hmapne : parts.map String.data ≠ [] := by
    intro hmap
    exact hne (List.map_eq_nil_iff.mp hmap)
  have hcs : ∀ cs ∈ parts.map String.data, c ∉ cs := by
    intro cs hcs
    obtain ⟨p, hp, rfl⟩ := List.mem_map.mp hcs
    exact hc p hp
  have hdata : (jsJoin c parts).data = joinChars c (parts.map String.data) := rfl
  unfold jsSplit
  rw [hdata, splitChars_joinChars hmapne hcs, List.map_map]
  have hid : (String.mk ∘ String.data) = id := funext fun s => rfl
  rw [hid, List.map_id]

theorem startsWithChars_append (p rest : List Char) :
    startsWithChars (p ++ rest) p = true := by
  induction p with
  | nil => simp [startsWithChars]
  | cons a as ih => simp [startsWithChars, ih]

theorem jsStartsWith_readAsDataURL (f : RawFile) :
    jsStartsWith (readAsDataURL f) "data:" = true := by
  have hdata : (readAsDataURL f).data
      = "data:".data ++ (f.type ++ ";base64," ++ f.content).data := by
    unfold readAsDataURL
    rw [← String.data_append]
    simp [String.append_assoc]
  unfold jsStartsWith
  rw [hdata]
  exact startsWithChars_append _ _

/-! Helper lemmas about entry construction. -/

theorem mkRemoteEntries_map_url (env : Nat → Nat) (clock : Nat) (urls : List String) :
    (mkRemoteEntries env clock urls).map (fun e => e.url) = urls := by
  induction urls generalizing clock with
  | nil => rfl
  | cons u us ih => simp [mkRemoteEntries, remoteEntry, ih]

theorem mkRemoteEntries_not_new (env : Nat → Nat) (clock : Nat) (urls : List String) :
    ∀ e ∈ mkRemoteEntries env clock urls, e.isNewUpload = false := by
  induction urls generalizing clock with
  | nil => intro e he; simp [mkRemoteEntries] at he
  | cons u us ih =>
      intro e he
      rcases List.mem_cons.mp he with h | h
      · rw [h]; rfl
      · exact ih (clock + 1) e h

theorem mkRemoteEntries_map_id (env : Nat → Nat) (clock : Nat) (urls : List String) :
    (mkRemoteEntries env clock urls).map (fun e => e.id)
      = (List.range' clock urls.length).map env := by
  induction urls generalizing clock with
  | nil => rfl
  | cons u us ih => simp [mkRemoteEntries, remoteEntry, List.range'_succ, ih]

theorem ingested_map_name (env : Nat → Nat) (clock : Nat) (fs : List RawFile) :
    (ingested env clock fs).map (fun e => e.name) = fs.map (fun f => f.name) := by
  induction fs generalizing clock with
  | nil => rfl
  | cons f fs ih => simp [ingested, decodeEntry, ih]

theorem ingested_all_new (env : Nat → Nat) (clock : Nat) (fs : List RawFile) :
    ∀ e ∈ ingested env clock fs, e.isNewUpload = true := by
  induction fs generalizing clock with
  | nil => intro e he; simp [ingested] at he
  | cons f fs ih =>
      intro e he
      rcases List.mem_cons.mp he with h | h
      · rw [h]; rfl
      · exact ih (clock + 1) e h

theorem ingested_length (env : Nat → Nat) (clock : Nat) (fs : List RawFile) :
    (ingested env clock fs).length = fs.length := by
  induction fs generalizing clock with
  | nil => rfl
  | cons f fs ih => simp [ingested, ih]

/-! Helper lemmas about the operations and the event run. -/

theorem setAsMain_of_lt (l : List FileData) (k : Nat) (h : k < l.length) :
    setAsMain l k = l.get ⟨k, h⟩ :: l.eraseIdx k := by
  simp [setAsMain, h]

theorem setAsMain_perm (l : List FileData) (k : Nat) :
    (setAsMain l k).Perm l := by
  by_cases h : k < l.length
  · rw [setAsMain_of_lt l k h, List.eraseIdx_eq_take_drop_succ]
    have hsplit : List.take k l ++ l.get ⟨k, h⟩ :: List.drop (k + 1) l = l := by
      rw [show l.get ⟨k, h⟩ :: List.drop (k + 1) l = List.drop k l from
        List.getElem_cons_drop l k h]
      exact List.take_append_drop k l
    calc (l.get ⟨k, h⟩ :: (List.take k l ++ List.drop (k + 1) l)).Perm
          (List.take k l ++ l.get ⟨k, h⟩ :: List.drop (k + 1) l) := List.perm_middle.symm
      _ = l := hsplit
  · simp [setAsMain, h]

theorem run_decodeDone (env : Nat → Nat) (s : EditorState) (fs : List RawFile)
    (himg : ∀ f ∈ fs, isImageType f = true) :
    run env s (fs.map Event.decodeDone)
      = { entries := s.entries ++ ingested env s.clock fs,
          clock := s.clock + fs.length } := by
  induction fs generalizing s with
  | nil => simp [run, ingested]
  | cons f fs ih =>
      have hf : isImageType f = true := himg f (List.mem_cons_self f fs)
      have hfs : ∀ g ∈ fs, isImageType g = true :=
        fun g hg => himg g (List.mem_cons_of_mem f hg)
      show run env (step env s (Event.decodeDone f)) (fs.map Event.decodeDone) = _
      rw [show step env s (Event.decodeDone f)
            = { entries := s.entries ++ [decodeEntry f (env s.clock)],
                clock := s.clock + 1 } by simp [step, hf]]
      rw [ih _ hfs]
      simp [ingested, List.append_assoc]
      omega

/-- Invariant: every new-upload entry carries a data URL (the decode
callback always stores a `readAsDataURL` result). -/
def DataUrlInv (l : List FileData) : Prop :=
  ∀ e ∈ l, e.isNewUpload = true → jsStartsWith e.url "data:" = true

theorem dataUrlInv_step (env : Nat → Nat) (s : EditorState) (e : Event)
    (h : DataUrlInv s.entries) : DataUrlInv (step env s e).entries := by
  cases e with
  | load v =>
      intro x hx hnew
      exact absurd (mkRemoteEntries_not_new env s.clock (initialUrls v) x hx)
        (by simp [hnew])
  | decodeDone f =>
      by_cases hf : isImageType f = true
      · intro x hx hnew
        simp [step, hf] at hx
        rcases hx with hx | hx
        · exact h x hx hnew
        · rw [hx]
          exact jsStartsWith_readAsDataURL f
      · simp only [step, hf]
        simpa [hf] using h
  | promote k =>
      intro x hx hnew
      exact h x ((setAsMain_perm s.entries k).mem_iff.mp hx) hnew
  | removeAt k =>
      intro x hx hnew
      exact h x ((List.eraseIdx_sublist s.entries k).subset hx) hnew

theorem dataUrlInv_run (env : Nat → Nat) (s : EditorState) (tr : List Event)
    (h : DataUrlInv s.entries) : DataUrlInv (run env s tr).entries := by
  induction tr generalizing s with
  | nil => exact h
  | cons e es ih => exact ih (step env s e) (dataUrlInv_step env s e h)

theorem dataUrlInv_runTrace (env : Nat → Nat) (tr : List Event) :
    DataUrlInv (runTrace env tr).entries := by
  refine dataUrlInv_run env initState tr ?_
  intro x hx
  simp [initState] at hx

/-- Invariant for identity freshness: entry ids are pairwise distinct
and each was drawn from the environment sequence below the clock. -/
def IdInv (env : Nat → Nat) (s : EditorState) : Prop :=
  ((s.entries.map (fun e => e.id)).Nodup) ∧
    ∀ e ∈ s.entries, ∃ j, j < s.clock ∧ e.id = env j

theorem idInv_step (env : Nat → Nat) (hinj : Function.Injective env)
    (s : EditorState) (e : Event) (h : IdInv env s) : IdInv env (step env s e) := by
  obtain ⟨hnd, hbound⟩ := h
  cases e with
  | load v =>
      constructor
      · show ((loadInitialImages env s.clock v).map (fun e => e.id)).Nodup
        rw [loadInitialImages, mkRemoteEntries_map_id]
        exact (List.nodup_range' _ _).map hinj
      · intro x hx
        have hid : x.id ∈ (mkRemoteEntries env s.clock (initialUrls v)).map
            (fun e => e.id) := List.mem_map_of_mem _ hx
        rw [mkRemoteEntries_map_id] at hid
        obtain ⟨j, hj, hje⟩ := List.mem_map.mp hid
        obtain ⟨i, hi, hji⟩ := List.mem_range'.mp hj
        refine ⟨j, ?_, hje.symm⟩
        show j < s.clock + (initialUrls v).length
        omega
  | decodeDone f =>
      by_cases hf : isImageType f = true
      · have hfresh : env s.clock ∉ s.entries.map (fun e => e.id) := by
          intro hmem
          obtain ⟨x, hx, hxe⟩ := List.mem_map.mp hmem
          obtain ⟨j, hj, hje⟩ := hbound x hx
          have : j = s.clock := hinj (by rw [← hje, hxe])
          omega
        rw [show step env s (Event.decodeDone f)
              = { entries := s.entries ++ [decodeEntry f (env s.clock)],
                  clock := s.clock + 1 } from by simp [step, hf]]
        constructor
        · show (((s.entries ++ [decodeEntry f (env s.clock)]).map
              (fun e => e.id)).Nodup)
          rw [List.map_append]
          rw [List.nodup_append]
          refine ⟨hnd, by simp, ?_⟩
          intro a ha hb
          simp [decodeEntry] at hb
          rw [hb] at ha
          exact hfresh ha
        · intro x hx
          show ∃ j, j < s.clock + 1 ∧ x.id = env j
          rcases List.mem_append.mp hx with hx | hx
          · obtain ⟨j, hj, hje⟩ := hbound x hx
            exact ⟨j, by omega, hje⟩
          · simp at hx
            exact ⟨s.clock, by omega, by simp [hx, decodeEntry]⟩
      · simpa [step, hf] using ⟨hnd, hbound⟩
  | promote k =>
      have hperm := setAsMain_perm s.entries k
      constructor
      · exact hnd.perm (hperm.map (fun e => e.id)).symm
      · intro x hx
        exact hbound x (hperm.mem_iff.mp hx)
  | removeAt k =>
      have hsub := List.eraseIdx_sublist s.entries k
      constructor
      · exact (hsub.map (fun e => e.id)).nodup hnd
      · intro x hx
        exact hbound x (hsub.subset hx)

theorem idInv_run (env : Nat → Nat) (hinj : Function.Injective env)
    (s : EditorState) (tr : List Event) (h : IdInv env s) :
    IdInv env (run env s tr) := by
  induction tr generalizing s with
  | nil => exact h
  | cons e es ih => exact ih (step env s e) (idInv_step env hinj s e h)

/-! Claim theorems. -/

/-- C3: `promoteToMain` (`setAsMain`) on a valid index `k` of an
`N`-entry collection moves the former entry at position `k` to position
0, keeps every other entry in its prior relative order (the tail is the
original list with position `k` deleted, i.e. the prefix before `k`
followed by the suffix after `k`), and the entry count stays `N`. -/
theorem promote_moves_entry_to_front (l : List FileData) (k : Nat)
    (h : k < l.length) :
    setAsMain l k = l.get ⟨k, h⟩ :: (l.take k ++ l.drop (k + 1)) ∧
    (setAsMain l k).length = l.length := by
  constructor
  · rw [setAsMain_of_lt l k h, List.eraseIdx_eq_take_drop_succ]
  · rw [setAsMain_of_lt l k h]
    have := List.length_eraseIdx_add_one h
    simp only [List.length_cons]
    omega

/-- Witness for C3: promoting index 1 of the three sample entries. -/
theorem promote_moves_entry_to_front_witness :
    setAsMain sampleEntries 1
        = sampleEntries.get ⟨1, by decide⟩
            :: (sampleEntries.take 1 ++ sampleEntries.drop 2) ∧
    (setAsMain sampleEntries 1).length = sampleEntries.length :=
  promote_moves_entry_to_front sampleEntries 1 (by decide)

/-- C7: `remove` (`removeImage`) on a valid index `k` deletes exactly
the entry at position `k` (the result is the prefix before `k` followed
by the suffix after `k`, so the count drops by exactly one and the
relative order of the rest is unchanged); when `k = 0` the result is
the original tail, whose head, if any, is the new positional main
entry, with no other bookkeeping. -/
theorem remove_deletes_exactly_one (l : List FileData) (k : Nat)
    (h : k < l.length) :
    removeImage l k = l.take k ++ l.drop (k + 1) ∧
    (removeImage l k).length = l.length - 1 ∧
    (k = 0 → removeImage l k = l.tail) := by
  refine ⟨List.eraseIdx_eq_take_drop_succ l k, ?_, ?_⟩
  · have := List.length_eraseIdx_add_one h
    show (l.eraseIdx k).length = l.length - 1
    omega
  · intro hk
    subst hk
    cases l with
    | nil => simp at h
    | cons a t => rfl

/-- Witness for C7: removing index 1 of the three sample entries. -/
theorem remove_deletes_exactly_one_witness :
    removeImage sampleEntries 1
        = sampleEntries.take 1 ++ sampleEntries.drop 2 ∧
    (removeImage sampleEntries 1).length = sampleEntries.length - 1 ∧
    (1 = 0 → removeImage sampleEntries 1 = sampleEntries.tail) :=
  remove_deletes_exactly_one sampleEntries 1 (by decide)

/-- C10: `remove` (`removeImage`) on an index at or past the end of the
collection leaves the entries entirely unchanged; `splice(k, 1)` with
`k >= length` removes nothing and raises nothing. -/
theorem remove_out_of_range_noop (l : List FileData) (k : Nat)
    (h : l.length ≤ k) : removeImage l k = l := by
  show l.eraseIdx k = l
  rw [List.eraseIdx_eq_take_drop_succ, List.take_of_length_le h,
    List.drop_eq_nil_of_le (by omega)]
  simp

/-- Witness for C10: removing index 5 of the three sample entries. -/
theorem remove_out_of_range_noop_witness :
    removeImage sampleEntries 5 = sampleEntries :=
  remove_out_of_range_noop sampleEntries 5 (by decide)

/-- C4: `loadExisting` (`loadInitialImages`) on the empty string yields
zero entries; on any nonempty string it splits on the comma delimiter
and turns each locator into one Remote entry (new-upload mark unset),
in the given order. -/
theorem load_existing_splits_locators (env : Nat → Nat) (clock : Nat)
    (v : String) :
    loadInitialImages env clock "" = [] ∧
    (v ≠ "" →
      (loadInitialImages env clock v).map (fun e => e.url) = jsSplit v ',') ∧
    ∀ e ∈ loadInitialImages env clock v, e.isNewUpload = false := by
  refine ⟨rfl, ?_, mkRemoteEntries_not_new env clock (initialUrls v)⟩
  intro hv
  rw [loadInitialImages, mkRemoteEntries_map_url]
  simp [initialUrls, hv]

/-- Witness for C4: loading `"a,b,c"` yields the three locators `a`,
`b`, `c` in order. -/
theorem load_existing_splits_locators_witness :
    (loadInitialImages (fun i => i) 0 "a,b,c").map (fun e => e.url)
      = ["a", "b", "c"] := by
  have h := (load_existing_splits_locators (fun i => i) 0 "a,b,c").2.1
    (by decide)
  rw [h]
  decide

/-- C8: no editor operation raises a user-visible error (every modelled
operation is a total function of the state, mirroring the scripts,
which contain no throwing path), and the degenerate input — the empty
hidden-field value — yields the empty collection rather than an error,
both as a bare call and as an editor run. -/
theorem load_empty_degrades_quietly (env : Nat → Nat) (clock : Nat)
    (v : String) (h : v = "") :
    loadInitialImages env clock v = [] ∧
    (runTrace env [Event.load v]).entries = [] := by
  subst h
  exact ⟨rfl, rfl⟩

/-- Witness for C8: the empty string. -/
theorem load_empty_degrades_quietly_witness :
    loadInitialImages (fun i => i) 0 "" = [] ∧
    (runTrace (fun i => i) [Event.load ""]).entries = [] :=
  load_empty_degrades_quietly (fun i => i) 0 "" rfl

/-- C6: for any batch of raw files, exactly the image-typed files
eventually contribute one appended new-upload entry each — under any
completion order of their decodes — and non-image files contribute
zero entries silently (their decode event is never started, so it is a
no-op on the state). -/
theorem ingest_appends_exactly_images (env : Nat → Nat) (s : EditorState)
    (files completions : List RawFile)
    (hperm : completions.Perm (files.filter isImageType)) :
    (run env s (completions.map Event.decodeDone)).entries
        = s.entries ++ ingested env s.clock completions ∧
    (run env s (completions.map Event.decodeDone)).entries.length
        = s.entries.length + (files.filter isImageType).length ∧
    (∀ e ∈ ingested env s.clock completions, e.isNewUpload = true) ∧
    (ingested env s.clock completions).map (fun e => e.name)
        = completions.map (fun f => f.name) ∧
    (∀ (t : EditorState) (f : RawFile), isImageType f = false →
        step env t (Event.decodeDone f) = t) := by
  have himg : ∀ f ∈ completions, isImageType f = true := by
    intro f hf
    exact List.of_mem_filter (hperm.mem_iff.mp hf)
  have hrun := run_decodeDone env s completions himg
  refine ⟨by rw [hrun], ?_, ingested_all_new env s.clock completions,
    ingested_map_name env s.clock completions, ?_⟩
  · rw [hrun]
    show (s.entries ++ ingested env s.clock completions).length = _
    rw [List.length_append, ingested_length, hperm.length_eq]
  · intro t f hf
    simp [step, hf]

/-- Witness for C6: one image file and one text file, with only the
image decode completing. -/
theorem ingest_appends_exactly_images_witness :
    (run (fun i => i) initState
        ([sampleImageFile].map Event.decodeDone)).entries.length
      = initState.entries.length
        + ([sampleImageFile, sampleTextFile].filter isImageType).length :=
  (ingest_appends_exactly_images (fun i => i) initState
      [sampleImageFile, sampleTextFile] [sampleImageFile] (by decide)).2.1

/-- C5: in the create flow, starting from an empty collection and
ingesting image-typed files whose decodes complete in ingestion order,
the submit serialization maps every entry to the placeholder locator
built from its original filename and joins them with the comma
delimiter, in that order. -/
theorem create_serialize_placeholder_locators (env : Nat → Nat)
    (files : List RawFile) (himg : ∀ f ∈ files, isImageType f = true) :
    serializeCreate (run env initState (files.map Event.decodeDone)).entries
      = jsJoin ',' (files.map (fun f => "/static/img/uploads/" ++ f.name)) := by
  rw [run_decodeDone env initState files himg]
  show serializeCreate (initState.entries ++ ingested env initState.clock files) = _
  have hnames : (ingested env 0 files).map
        (fun f => "/static/img/uploads/" ++ f.name)
      = (files.map (fun f => f.name)).map
        (fun n => "/static/img/uploads/" ++ n) := by
    rw [← ingested_map_name env 0 files, List.map_map]
    rfl
  unfold serializeCreate
  rw [show initState.entries ++ ingested env initState.clock files
      = ingested env 0 files from rfl, hnames, List.map_map]
  rfl

/-- Witness for C5: ingesting `a.png` then `b.png` serializes to the
two placeholder locators in ingestion order. -/
theorem create_serialize_placeholder_locators_witness :
    serializeCreate (run (fun i => i) initState
        ([sampleImageFile, sampleImageFileB].map Event.decodeDone)).entries
      = "/static/img/uploads/a.png,/static/img/uploads/b.png" := by
  rw [create_serialize_placeholder_locators (fun i => i)
    [sampleImageFile, sampleImageFileB] (by decide)]
  decide

/-- Counterexample to C2 as stated: the submit handler selects entries
by the test `url` does not start with `"data:"`, not by Remote
provenance. On the reachable state loaded from the value `"data:x"`
the single entry is Remote (not a new upload), yet the handler drops
it: serialization yields `""` while the Remote locators joined yield
`"data:x"`. -/
theorem edit_serialize_misses_data_locator :
    serializeEdit (runTrace (fun _ => 0) [Event.load "data:x"]).entries
      ≠ specEditSerialize (runTrace (fun _ => 0) [Event.load "data:x"]).entries := by
  decide

/-- C2 amended: on every reachable edit-flow state in which no Remote
entry's locator starts with `"data:"`, the submit handler's value is
exactly the locators of the Remote entries, in current order, joined
with the comma delimiter (new-upload entries always carry data URLs,
so they are always excluded). -/
theorem edit_serialize_eq_remote_locators (env : Nat → Nat)
    (tr : List Event)
    (hrem : ∀ e ∈ (runTrace env tr).entries,
        e.isNewUpload = false → jsStartsWith e.url "data:" = false) :
    serializeEdit (runTrace env tr).entries
      = specEditSerialize (runTrace env tr).entries := by
  have hinv := dataUrlInv_runTrace env tr
  have hfilter : (runTrace env tr).entries.filter
        (fun f => !(jsStartsWith f.url "data:"))
      = (runTrace env tr).entries.filter (fun f => !f.isNewUpload) := by
    apply List.filter_congr
    intro e he
    cases hnew : e.isNewUpload with
    | true => simp [hinv e he hnew, hnew]
    | false => simp [hrem e he hnew, hnew]
  unfold serializeEdit specEditSerialize
  rw [hfilter]

/-- Witness for C2 amended: the spec's scenario — load
`"img1.jpg,img2.jpg"`, promote index 1, then serialize. -/
theorem edit_serialize_eq_remote_locators_witness :
    serializeEdit (runTrace (fun i => i)
        [Event.load "img1.jpg,img2.jpg", Event.promote 1]).entries
      = specEditSerialize (runTrace (fun i => i)
        [Event.load "img1.jpg,img2.jpg", Event.promote 1]).entries :=
  edit_serialize_eq_remote_locators (fun i => i)
    [Event.load "img1.jpg,img2.jpg", Event.promote 1] (by decide)

/-- Counterexample to C1 as stated: with Remote locators
`["a,b", "c", "d"]` — the first contains the delimiter — serialization
joins to `"a,b,c,d"` and a fresh load splits that into four locators,
so the round trip does not reproduce the three original locators. -/
theorem roundtrip_fails_on_delimiter :
    (loadInitialImages (fun i => i) 0 (serializeEdit
        ([⟨1, "a,b", "a,b", false⟩, ⟨2, "c", "c", false⟩,
          ⟨3, "d", "d", false⟩] : List FileData))).map (fun e => e.url)
      ≠ ["a,b", "c", "d"] := by
  decide

/-- C1 amended: for a collection of exactly three Remote entries with
locators `[x, y, z]`, provided no locator contains the comma delimiter
and no locator starts with `"data:"`, serializing and feeding the
result to a fresh load reproduces three Remote entries with locators
`[x, y, z]` in the same order. -/
theorem roundtrip_remote_of_no_delimiter (env : Nat → Nat) (clock : Nat)
    (l : List FileData) (x y z : String)
    (hurl : l.map (fun e => e.url) = [x, y, z])
    (hsep : ∀ u ∈ [x, y, z], ',' ∉ u.data)
    (hdat : ∀ u ∈ [x, y, z], jsStartsWith u "data:" = false) :
    (loadInitialImages env clock (serializeEdit l)).map (fun e => e.url)
        = [x, y, z] ∧
    ∀ e ∈ loadInitialImages env clock (serializeEdit l),
        e.isNewUpload = false := by
  have hkeep : l.filter (fun f => !(jsStartsWith f.url "data:")) = l := by
    rw [List.filter_eq_self]
    intro f hf
    have hmem : f.url ∈ l.map (fun e => e.url) := List.mem_map_of_mem _ hf
    rw [hurl] at hmem
    simp [hdat f.url hmem]
  have hser : serializeEdit l = jsJoin ',' [x, y, z] := by
    unfold serializeEdit
    rw [hkeep, hurl]
  have hne : jsJoin ',' [x, y, z] ≠ "" := by
    intro hemp
    have hdata : (jsJoin ',' [x, y, z]).data = [] := by rw [hemp]
    simp [jsJoin, joinChars] at hdata
  have hsplit : jsSplit (jsJoin ',' [x, y, z]) ',' = [x, y, z] :=
    jsSplit_jsJoin (by simp) hsep
  rw [hser]
  constructor
  · rw [loadInitialImages, mkRemoteEntries_map_url, initialUrls,
      if_neg hne, hsplit]
  · exact mkRemoteEntries_not_new env clock _

/-- Witness for C1 amended: three delimiter-free locators round-trip. -/
theorem roundtrip_remote_of_no_delimiter_witness :
    (loadInitialImages (fun i => i) 7 (serializeEdit sampleEntries)).map
        (fun e => e.url) = ["img1.jpg", "img2.jpg", "img3.jpg"] ∧
    ∀ e ∈ loadInitialImages (fun i => i) 7 (serializeEdit sampleEntries),
        e.isNewUpload = false :=
  roundtrip_remote_of_no_delimiter (fun i => i) 7 sampleEntries
    "img1.jpg" "img2.jpg" "img3.jpg" (by decide) (by decide) (by decide)

/-- Counterexample to C9 as stated: the script draws each identity from
`Date.now() + Math.random()`, which the environment does not guarantee
distinct. With an environment whose id sequence is constantly `5`,
loading `"a,b"` reaches a state whose two entries share identity `5`. -/
theorem duplicate_identity_reachable :
    ¬ (((runTrace (fun _ => 5) [Event.load "a,b"]).entries.map
        (fun e => e.id)).Nodup) := by
  decide

/-- C9 amended: whenever the environment's id sequence never repeats a
value (is injective), every state reachable by any run of load, decode
completions, promote and remove has pairwise-distinct entry
identities; identities are assigned at entry-creation time and new
ones never collide with live ones. -/
theorem reachable_identities_nodup (env : Nat → Nat)
    (hinj : Function.Injective env) (tr : List Event) :
    ((runTrace env tr).entries.map (fun e => e.id)).Nodup :=
  (idInv_run env hinj initState tr
    ⟨by simp [initState], by simp [initState]⟩).1

/-- Witness for C9 amended: an injective id sequence on a concrete
run. -/
theorem reachable_identities_nodup_witness :
    ((runTrace (fun i => i)
        [Event.load "a,b", Event.decodeDone sampleImageFile]).entries.map
        (fun e => e.id)).Nodup :=
  reachable_identities_nodup (fun i => i) (fun _ _ h => h)
    [Event.load "a,b", Event.decodeDone sampleImageFile]

end ImageEditor
